import Mathlib

/-!
Verification of `src/USER-MESO/atom_vec_rbc.cpp` (USERMESO-2.0), the
particle-storage / wire-encoding core for the RBC atom style.

Modelling conventions:
* C `double` is modelled as `ℚ` (all claims only involve exactly
  representable values and single additions, so the rational model agrees
  with IEEE double on every input appearing in a theorem).
* C `int`/`tagint` are modelled as `ℤ` (counts that only ever serve as
  loop bounds are modelled as `ℕ`, and the group-bitmask field as `ℕ`,
  since those are nonnegative in every reachable state).
* `x & IMGMASK` with `IMGMASK = 2^10 - 1` on a two's-complement integer
  equals the Euclidean remainder `x % 1024`, `x >> k` on a nonnegative
  value equals `x / 2^k` (and on C implementations arithmetic shift, i.e.
  floor division, which Lean's Euclidean `/` matches for positive
  divisors), and `|` of disjoint shifted bit fields is addition.  The
  codec below uses that arithmetic form.
* A buffer word (`double` slot) either holds a real value or a `tagint`
  stored by pointer type-punning (`*((tagint*)&buf[m]) = ...`); the
  inductive `Word` keeps the two apart exactly as the bit pattern does.
* The per-particle extension hooks (`atom->nextra_*` fixes) are external
  collaborators; the model is the store with no registered extensions.
-/

/-- IMGMAX image-flag bias, LAMMPS smallbig default (2^9 ... field width 10). -/
def IMGMAX : ℤ := 512

/-- Encoding of three signed wrap counts into one image code, as built by
the inline re-encoding in `pack_comm_vel`/`pack_border` (lines 282-284):
`((w + IMGMAX) & IMGMASK) | (... << IMGBITS) | (... << IMG2BITS)`. -/
def encodeImg (wx wy wz : ℤ) : ℤ :=
  ((wx + IMGMAX) % 1024) + ((wy + IMGMAX) % 1024) * 1024 +
    ((wz + IMGMAX) % 1024) * 1048576

/-- Decoding of an image code into the three signed wrap counts, as done
inline in `pack_comm_vel` (lines 279-281): mask out each 10-bit field and
subtract the bias. -/
def decodeImg (code : ℤ) : ℤ × ℤ × ℤ :=
  ((code % 1024) - IMGMAX,
   ((code / 1024) % 1024) - IMGMAX,
   ((code / 1048576) % 1024) - IMGMAX)

/-- Remap of an image code by a per-axis shift, as done inline when a
replica is produced across a periodic boundary (`pack_comm_vel` lines
278-284, `pack_border` lines 459-467): decode, subtract the shift per
axis, re-encode. -/
def remapImg (code : ℤ) (s0 s1 s2 : ℤ) : ℤ :=
  encodeImg ((decodeImg code).1 - s0) ((decodeImg code).2.1 - s1)
    ((decodeImg code).2.2 - s2)

/-- C3: for per-axis wrap counts in the supported range
`[-IMGMAX, IMGMAX-1]`, decoding the packed image code produced by
encoding them returns exactly the original triple. -/
theorem c3_image_codec_inverse (wx wy wz : ℤ)
    (hx0 : -512 ≤ wx) (hx1 : wx ≤ 511)
    (hy0 : -512 ≤ wy) (hy1 : wy ≤ 511)
    (hz0 : -512 ≤ wz) (hz1 : wz ≤ 511) :
    decodeImg (encodeImg wx wy wz) = (wx, wy, wz) := by
  simp only [decodeImg, encodeImg, IMGMAX, Prod.mk.injEq]
  omega

/-- C3 witness: the codec inverse at the concrete triple `(-3, 0, 511)`. -/
theorem c3_image_codec_inverse_witness :
    decodeImg (encodeImg (-3) 0 511) = (-3, 0, 511) :=
  c3_image_codec_inverse (-3) 0 511 (by decide) (by decide) (by decide)
    (by decide) (by decide) (by decide)

/-- C4: applying the remap operation with shift `s1` and then with shift
`s2` yields the same code as applying it once with the component-wise sum
`s1 + s2`, for every image code and all shifts. -/
theorem c4_remap_composes (code a0 a1 a2 b0 b1 b2 : ℤ) :
    remapImg (remapImg code a0 a1 a2) b0 b1 b2 =
      remapImg code (a0 + b0) (a1 + b1) (a2 + b2) := by
  simp only [remapImg, decodeImg, encodeImg, IMGMAX]
  omega

/-- Truncation toward zero, the semantics of C `static_cast<int>(double)`. -/
def truncQ (q : ℚ) : ℤ := if q < 0 then ⌈q⌉ else ⌊q⌋

theorem truncQ_intCast (z : ℤ) : truncQ ((z : ℚ)) = z := by
  unfold truncQ; split <;> simp

theorem truncQ_natCast (n : ℕ) : truncQ ((n : ℚ)) = (n : ℤ) := by
  have := truncQ_intCast (n : ℤ)
  simpa using this

/-- One word of the flat wire buffer: either a `double` value, or a
`tagint` bit pattern stored by pointer punning. -/
inductive Word where
  | R : ℚ → Word
  | I : ℤ → Word
deriving DecidableEq

/-- Reading a buffer word as a `double`. -/
def wq : Word → ℚ
  | .R q => q
  | .I _ => 0

/-- Reading a buffer word with `static_cast<int>`. -/
def wi : Word → ℤ
  | .R q => truncQ q
  | .I _ => 0

/-- Reading a buffer word through the `tagint` pointer pun. -/
def wtag : Word → ℤ
  | .I z => z
  | .R _ => 0

theorem wq_R (q : ℚ) : wq (.R q) = q := rfl

theorem wi_R_int (z : ℤ) : wi (.R (z : ℚ)) = z := truncQ_intCast z

theorem wi_R_nat (n : ℕ) : wi (.R (n : ℚ)) = (n : ℤ) := truncQ_natCast n

/-- The per-particle arrays of `AtomVecRBC` (one structure-of-arrays store
for one subdomain).  Arrays are total functions from slot index (and entry
index); the capacity bookkeeping (`nmax`, `grow`) is not needed by any
claim and is omitted — in C every access below is within the allocated
range. -/
structure Store where
  nlocal : ℕ
  tag : ℕ → ℤ
  type : ℕ → ℤ
  mask : ℕ → ℕ
  image : ℕ → ℤ
  x : ℕ → ℕ → ℚ
  v : ℕ → ℕ → ℚ
  f : ℕ → ℕ → ℚ
  molecule : ℕ → ℤ
  num_bond : ℕ → ℕ
  bond_type : ℕ → ℕ → ℤ
  bond_atom : ℕ → ℕ → ℤ
  bond_r0 : ℕ → ℕ → ℚ
  num_angle : ℕ → ℕ
  angle_type : ℕ → ℕ → ℤ
  angle_atom1 : ℕ → ℕ → ℤ
  angle_atom2 : ℕ → ℕ → ℤ
  angle_atom3 : ℕ → ℕ → ℤ
  angle_a0 : ℕ → ℕ → ℚ
  num_dihedral : ℕ → ℕ
  dihedral_type : ℕ → ℕ → ℤ
  dihedral_atom1 : ℕ → ℕ → ℤ
  dihedral_atom2 : ℕ → ℕ → ℤ
  dihedral_atom3 : ℕ → ℕ → ℤ
  dihedral_atom4 : ℕ → ℕ → ℤ
  nspecial : ℕ → ℕ → ℕ
  special : ℕ → ℕ → ℤ

/-- Orthogonal/triclinic box geometry read from `domain->...`. -/
structure DomainBox where
  xprd : ℚ
  yprd : ℚ
  zprd : ℚ
  xy : ℚ
  xz : ℚ
  yz : ℚ
  triclinic : Bool

/-- Single-cell write into a one-index array. -/
def upd1 {α : Type} (g : ℕ → α) (i : ℕ) (a : α) : ℕ → α :=
  fun b => if b = i then a else g b

/-- Single-cell write into a two-index array. -/
def upd2 {α : Type} (g : ℕ → ℕ → α) (i k : ℕ) (a : α) : ℕ → ℕ → α :=
  fun b c => if b = i ∧ c = k then a else g b c

/-- Writing the three components of row `i` (e.g. `x[i][0..2] = ...`). -/
def updRow3 (g : ℕ → ℕ → ℚ) (i : ℕ) (a0 a1 a2 : ℚ) : ℕ → ℕ → ℚ :=
  upd2 (upd2 (upd2 g i 0 a0) i 1 a1) i 2 a2

/-- Net effect of the loop `for (k = 0; k < cnt; k++) arr[i][k] = vals k`. -/
def updRow {α : Type} (g : ℕ → ℕ → α) (i cnt : ℕ) (vals : ℕ → α) :
    ℕ → ℕ → α :=
  fun b c => if b = i ∧ c < cnt then vals c else g b c

theorem upd1_self {α : Type} (g : ℕ → α) (i : ℕ) (a : α) :
    upd1 g i a i = a := by simp [upd1]

theorem upd1_other {α : Type} (g : ℕ → α) (i b : ℕ) (a : α) (h : b ≠ i) :
    upd1 g i a b = g b := by simp [upd1, h]

theorem upd2_self {α : Type} (g : ℕ → ℕ → α) (i k : ℕ) (a : α) :
    upd2 g i k a i k = a := by simp [upd2]

theorem updRow_self {α : Type} (g : ℕ → ℕ → α) (i cnt : ℕ)
    (vals : ℕ → α) (c : ℕ) (h : c < cnt) : updRow g i cnt vals i c = vals c := by
  simp [updRow, h]

theorem updRow3_self (g : ℕ → ℕ → ℚ) (i d : ℕ) (a0 a1 a2 : ℚ) (hd : d < 3) :
    updRow3 g i a0 a1 a2 i d = if d = 0 then a0 else if d = 1 then a1 else a2 := by
  interval_cases d <;> simp [updRow3, upd2]

/-- The loop `for (k = 0; k < n; k++) emit(block (start+k))`, flattened
into the buffer in ascending order. -/
def seg (f : ℕ → List Word) (start : ℕ) : ℕ → List Word
  | 0 => []
  | n + 1 => f start ++ seg f (start + 1) n

theorem seg_length (f : ℕ → List Word) (L : ℕ)
    (hf : ∀ k, (f k).length = L) :
    ∀ n start, (seg f start n).length = L * n := by
  intro n
  induction n with
  | zero => intro start; simp [seg]
  | succ m ih =>
      intro start
      simp [seg, hf, ih, Nat.mul_succ]
      ring

/-- Element of a `seg` of constant-length blocks: the word at offset
`L*k + d` is word `d` of block `start + k`. -/
theorem seg_getD (f : ℕ → List Word) (L : ℕ)
    (hf : ∀ k, (f k).length = L) (w : Word) :
    ∀ n k start (rest : List Word), k < n → ∀ d, d < L →
      (seg f start n ++ rest).getD (L * k + d) w = (f (start + k)).getD d w := by
  intro n
  induction n with
  | zero => intro k start rest hk; omega
  | succ m ih =>
      intro k start rest hk d hd
      rcases Nat.eq_zero_or_pos k with hk0 | hkpos
      · subst hk0
        simp only [seg, List.append_assoc]
        rw [List.getD_append]
        · simp
        · rw [hf]; omega
      · obtain ⟨k', rfl⟩ := Nat.exists_eq_succ_of_ne_zero (Nat.pos_iff_ne_zero.mp hkpos)
        simp only [seg, List.append_assoc]
        rw [List.getD_append_right]
        · rw [hf]
          have h1 : L * (k' + 1) + d - L = L * k' + d := by
            rw [Nat.mul_succ]; omega
          rw [h1]
          have h2 : k' < m := by omega
          have := ih k' (start + 1) rest h2 d hd
          rw [this]
          have h3 : start + 1 + k' = start + (k' + 1) := by omega
          rw [h3]
        · rw [hf, Nat.mul_succ]; omega

theorem updRow3_other (g : ℕ → ℕ → ℚ) (i : ℕ) (a0 a1 a2 : ℚ) (b c : ℕ)
    (h : b ≠ i) : updRow3 g i a0 a1 a2 b c = g b c := by
  simp [updRow3, upd2, h]

theorem getD_mem : ∀ (l : List ℕ) (k : ℕ), k < l.length → l.getD k 0 ∈ l := by
  intro l
  induction l with
  | nil => intro k h; simp at h
  | cons a r ih =>
      intro k h
      cases k with
      | zero => simp
      | succ k' =>
          simp only [List.getD_cons_succ]
          exact List.mem_cons_of_mem a (ih k' (by simp at h; omega))

/-- `AtomVecRBC::pack_reverse` (lines 391-402): copy the force
accumulators of the `n` consecutive slots `first .. first+n-1` into the
buffer. -/
def pack_reverse (s : Store) (n first : ℕ) : List Word :=
  seg (fun i => [.R (s.f i 0), .R (s.f i 1), .R (s.f i 2)]) first n

/-- The force-array effect of `AtomVecRBC::unpack_reverse` (lines
406-416): for each listed slot in order, add (`+=`) the next three buffer
words into its accumulator row.  The C `n` argument is the length of
`list`. -/
def unpack_reverse_f (g : ℕ → ℕ → ℚ) (list : List ℕ) (buf : List Word) :
    ℕ → ℕ → ℚ :=
  match list, buf with
  | [], _ => g
  | j :: rest, b0 :: b1 :: b2 :: bs =>
      unpack_reverse_f
        (updRow3 g j (g j 0 + wq b0) (g j 1 + wq b1) (g j 2 + wq b2)) rest bs
  | _ :: _, _ => g

/-- `AtomVecRBC::unpack_reverse`: only the force accumulators change. -/
def unpack_reverse (s : Store) (list : List ℕ) (buf : List Word) : Store :=
  { s with f := unpack_reverse_f s.f list buf }

theorem unpack_reverse_f_frame :
    ∀ (list : List ℕ) (g : ℕ → ℕ → ℚ) (buf : List Word) (j d : ℕ),
      j ∉ list → unpack_reverse_f g list buf j d = g j d := by
  intro list
  induction list with
  | nil => intro g buf j d _; rfl
  | cons a rest ih =>
      intro g buf j d hj
      rcases buf with _ | ⟨b0, buf⟩
      · rfl
      rcases buf with _ | ⟨b1, buf⟩
      · rfl
      rcases buf with _ | ⟨b2, bs⟩
      · rfl
      have hja : j ≠ a := fun h => hj (h ▸ List.mem_cons_self a rest)
      have hjr : j ∉ rest := fun h => hj (List.mem_cons_of_mem a h)
      show unpack_reverse_f _ rest bs j d = g j d
      rw [ih _ bs j d hjr]
      exact updRow3_other _ _ _ _ _ _ _ hja

theorem unpack_reverse_f_adds :
    ∀ (list : List ℕ) (g : ℕ → ℕ → ℚ) (buf : List Word),
      list.Nodup → 3 * list.length ≤ buf.length →
      ∀ k, k < list.length → ∀ d, d < 3 →
        unpack_reverse_f g list buf (list.getD k 0) d =
          g (list.getD k 0) d + wq (buf.getD (3 * k + d) (.R 0)) := by
  intro list
  induction list with
  | nil => intro g buf _ _ k hk; simp at hk
  | cons a rest ih =>
      intro g buf hnd hlen k hk d hd
      rcases buf with _ | ⟨b0, buf⟩
      · simp at hlen
      rcases buf with _ | ⟨b1, buf⟩
      · simp at hlen; omega
      rcases buf with _ | ⟨b2, bs⟩
      · simp at hlen; omega
      have hanr : a ∉ rest := (List.nodup_cons.mp hnd).1
      have hndr : rest.Nodup := (List.nodup_cons.mp hnd).2
      have hlen' : 3 * rest.length ≤ bs.length := by
        simp at hlen ⊢; omega
      rcases Nat.eq_zero_or_pos k with hk0 | hkpos
      · subst hk0
        show unpack_reverse_f _ rest bs ((a :: rest).getD 0 0) d = _
        simp only [List.getD_cons_zero]
        rw [unpack_reverse_f_frame rest _ bs a d hanr]
        interval_cases d <;> simp [updRow3, upd2]
      · obtain ⟨k', rfl⟩ :=
          Nat.exists_eq_succ_of_ne_zero (Nat.pos_iff_ne_zero.mp hkpos)
        have hk' : k' < rest.length := by simp at hk; omega
        show unpack_reverse_f _ rest bs ((a :: rest).getD (k' + 1) 0) d = _
        simp only [List.getD_cons_succ]
        rw [ih _ bs hndr hlen' k' hk' d hd]
        have hne : rest.getD k' 0 ≠ a :=
          fun h => hanr (h ▸ getD_mem rest k' hk')
        rw [updRow3_other _ _ _ _ _ _ _ hne]
        have hidx : 3 * (k' + 1) + d = (3 * k' + d) + 1 + 1 + 1 := by omega
        rw [hidx]
        simp [List.getD_cons_succ]

theorem pack_reverse_getD (s : Store) (n first k d : ℕ)
    (hk : k < n) (hd : d < 3) :
    (pack_reverse s n first).getD (3 * k + d) (.R 0) =
      .R (s.f (first + k) d) := by
  unfold pack_reverse
  have h := seg_getD (fun i => [.R (s.f i 0), .R (s.f i 1), .R (s.f i 2)]) 3
    (fun _ => rfl) (.R 0) n k first [] hk d hd
  rw [List.append_nil] at h
  rw [h]
  interval_cases d <;> rfl

theorem pack_reverse_length (s : Store) (n first : ℕ) :
    (pack_reverse s n first).length = 3 * n :=
  seg_length (fun i => [.R (s.f i 0), .R (s.f i 1), .R (s.f i 2)]) 3
    (fun _ => rfl) n first

/-- An all-zero store, used to build concrete example states. -/
def zeroStore : Store where
  nlocal := 0
  tag := fun _ => 0
  type := fun _ => 0
  mask := fun _ => 0
  image := fun _ => 0
  x := fun _ _ => 0
  v := fun _ _ => 0
  f := fun _ _ => 0
  molecule := fun _ => 0
  num_bond := fun _ => 0
  bond_type := fun _ _ => 0
  bond_atom := fun _ _ => 0
  bond_r0 := fun _ _ => 0
  num_angle := fun _ => 0
  angle_type := fun _ _ => 0
  angle_atom1 := fun _ _ => 0
  angle_atom2 := fun _ _ => 0
  angle_atom3 := fun _ _ => 0
  angle_a0 := fun _ _ => 0
  num_dihedral := fun _ => 0
  dihedral_type := fun _ _ => 0
  dihedral_atom1 := fun _ _ => 0
  dihedral_atom2 := fun _ _ => 0
  dihedral_atom3 := fun _ _ => 0
  dihedral_atom4 := fun _ _ => 0
  nspecial := fun _ _ => 0
  special := fun _ _ => 0

/-- Source store for the C7 counterexample: slot 0 holds force `(1,0,0)`,
slot 1 holds `(2,0,0)`. -/
def c7src : Store :=
  { zeroStore with
    f := fun i d =>
      if i = 0 ∧ d = 0 then 1 else if i = 1 ∧ d = 0 then 2 else 0 }

/-- C7 counterexample: with the duplicate index list `[0, 0]`, the two
packed triples both accumulate into slot 0, so the destination component
afterwards (3) is not its prior value plus the 0-th packed value (1): the
claim as stated over every index list fails. -/
theorem c7_counterexample_duplicate_list :
    (unpack_reverse zeroStore [0, 0] (pack_reverse c7src 2 0)).f
        (([0, 0] : List ℕ).getD 0 0) 0 ≠
      zeroStore.f (([0, 0] : List ℕ).getD 0 0) 0 + c7src.f (0 + 0) 0 := by
  norm_num [unpack_reverse, unpack_reverse_f, pack_reverse, seg, zeroStore,
    c7src, updRow3, upd2, wq]

/-- C7 (amended: the index list must be duplicate-free, as every
communication list built by the scheduler is): packing the force
accumulators of `n` consecutive slots starting at `first` with
`pack_reverse` and unpacking with `unpack_reverse` adds — never
overwrites — the `k`-th packed triple into the accumulator of slot
`list[k]`: each destination component afterwards equals its prior value
plus the packed value, exactly. -/
theorem c7_reverse_roundtrip_adds (ssrc sdst : Store) (n first : ℕ)
    (list : List ℕ) (hlen : list.length = n) (hnd : list.Nodup)
    (k : ℕ) (hk : k < n) (d : ℕ) (hd : d < 3) :
    (unpack_reverse sdst list (pack_reverse ssrc n first)).f
        (list.getD k 0) d =
      sdst.f (list.getD k 0) d + ssrc.f (first + k) d := by
  have hbuf : 3 * list.length ≤ (pack_reverse ssrc n first).length := by
    rw [pack_reverse_length, hlen]
  show unpack_reverse_f sdst.f list _ (list.getD k 0) d = _
  rw [unpack_reverse_f_adds list sdst.f _ hnd hbuf k (hlen ▸ hk) d hd]
  rw [pack_reverse_getD ssrc n first k d hk hd, wq_R]

/-- C7 witness: the round trip at the concrete list `[0, 1]`, `n = 2`,
`first = 0`, entry `k = 1`, component `d = 0`. -/
theorem c7_reverse_roundtrip_adds_witness :
    ([0, 1] : List ℕ).length = 2 ∧ ([0, 1] : List ℕ).Nodup ∧
      (unpack_reverse zeroStore [0, 1] (pack_reverse c7src 2 0)).f
          (([0, 1] : List ℕ).getD 1 0) 0 =
        zeroStore.f (([0, 1] : List ℕ).getD 1 0) 0 + c7src.f (0 + 1) 0 :=
  ⟨by decide, by decide,
    c7_reverse_roundtrip_adds c7src zeroStore 2 0 [0, 1] (by decide)
      (by decide) 1 (by decide) 0 (by decide)⟩

/-- `AtomVecRBC::pack_border` (lines 420-492, no registered extensions):
per listed slot emit position (offset-adjusted when `pbc_flag` is set),
tag, type, mask, molecule, and the image code (remapped by `pbc` when
`pbc_flag` is set).  In the triclinic branch the displacement is `pbc[k]`
itself. -/
def pack_border (s : Store) (dom : DomainBox) (list : List ℕ)
    (pbc_flag : Bool) (pbc : ℕ → ℤ) : List Word :=
  if pbc_flag = false then
    list.flatMap fun j =>
      [.R (s.x j 0), .R (s.x j 1), .R (s.x j 2),
       .R ((s.tag j : ℚ)), .R ((s.type j : ℚ)), .R ((s.mask j : ℚ)),
       .R ((s.molecule j : ℚ)), .I (s.image j)]
  else
    let dx : ℚ := if dom.triclinic = false then (pbc 0 : ℚ) * dom.xprd
      else (pbc 0 : ℚ)
    let dy : ℚ := if dom.triclinic = false then (pbc 1 : ℚ) * dom.yprd
      else (pbc 1 : ℚ)
    let dz : ℚ := if dom.triclinic = false then (pbc 2 : ℚ) * dom.zprd
      else (pbc 2 : ℚ)
    list.flatMap fun j =>
      [.R (s.x j 0 + dx), .R (s.x j 1 + dy), .R (s.x j 2 + dz),
       .R ((s.tag j : ℚ)), .R ((s.type j : ℚ)), .R ((s.mask j : ℚ)),
       .R ((s.molecule j : ℚ)),
       .I (remapImg (s.image j) (pbc 0) (pbc 1) (pbc 2))]

/-- One iteration of `AtomVecRBC::unpack_border` (lines 643-664): store
the eight words of one record into destination slot `i`; the image field
is overwritten outright from the buffer. -/
def unpack_border_step (s : Store) (i : ℕ) (b : List Word) : Store :=
  { s with
    x := updRow3 s.x i (wq (b.getD 0 (.R 0))) (wq (b.getD 1 (.R 0)))
           (wq (b.getD 2 (.R 0))),
    tag := upd1 s.tag i (wi (b.getD 3 (.R 0))),
    type := upd1 s.type i (wi (b.getD 4 (.R 0))),
    mask := upd1 s.mask i (wi (b.getD 5 (.R 0))).toNat,
    molecule := upd1 s.molecule i (wi (b.getD 6 (.R 0))),
    image := upd1 s.image i (wtag (b.getD 7 (.R 0))) }

/-- `AtomVecRBC::unpack_border`: fill `n` consecutive destination slots
starting at `first` from consecutive eight-word records. -/
def unpack_border (s : Store) (n first : ℕ) (buf : List Word) : Store :=
  match n with
  | 0 => s
  | nn + 1 =>
      unpack_border (unpack_border_step s first buf) nn (first + 1)
        (buf.drop 8)

/-- Store for the C2 scenario: a particle at `(9.5, 0, 0)` with image
code `(0,0,0)`. -/
def c2src : Store :=
  { zeroStore with
    x := fun i d => if i = 0 ∧ d = 0 then 19 / 2 else 0,
    image := fun _ => encodeImg 0 0 0 }

/-- Orthogonal domain of x-length 10 for the C2 scenario. -/
def c2dom : DomainBox :=
  { xprd := 10, yprd := 10, zprd := 10, xy := 0, xz := 0, yz := 0,
    triclinic := false }

/-- Periodic offset `pbc = (1, 0, 0)`. -/
def c2pbc : ℕ → ℤ := fun d => if d = 0 then 1 else 0

/-- C2: packing the particle at `(9.5,0,0)` with image `(0,0,0)` in an
orthogonal domain of x-length 10 under offset `pbc = (1,0,0)` writes
position `(19.5, 0, 0)` and the image code encoding `(-1,0,0)`; unpacking
on the receiving side stores exactly that position and exactly that image
code into the destination slot (here slot 5), overwriting the
destination's previous image outright. -/
theorem c2_border_roundtrip_periodic_offset :
    (pack_border c2src c2dom [0] true c2pbc).getD 0 (.R 0) = .R (39 / 2) ∧
    (pack_border c2src c2dom [0] true c2pbc).getD 1 (.R 0) = .R 0 ∧
    (pack_border c2src c2dom [0] true c2pbc).getD 2 (.R 0) = .R 0 ∧
    (pack_border c2src c2dom [0] true c2pbc).getD 7 (.R 0) =
      .I (encodeImg (-1) 0 0) ∧
    (unpack_border zeroStore 1 5
        (pack_border c2src c2dom [0] true c2pbc)).x 5 0 = 39 / 2 ∧
    (unpack_border zeroStore 1 5
        (pack_border c2src c2dom [0] true c2pbc)).x 5 1 = 0 ∧
    (unpack_border zeroStore 1 5
        (pack_border c2src c2dom [0] true c2pbc)).x 5 2 = 0 ∧
    (unpack_border zeroStore 1 5
        (pack_border c2src c2dom [0] true c2pbc)).image 5 =
      encodeImg (-1) 0 0 ∧
    zeroStore.image 5 ≠ encodeImg (-1) 0 0 := by
  norm_num [pack_border, unpack_border, unpack_border_step, c2src, c2dom,
    c2pbc, zeroStore, remapImg, decodeImg, encodeImg, IMGMAX, updRow3,
    upd2, upd1, wq, wtag]

/-- The per-axis deformation velocity correction `dvx, dvy, dvz` computed
from `h_rate` and `pbc` (`pack_comm_vel` lines 306-308, `pack_border_vel`
lines 569-571). -/
def dv_of (h_rate : ℕ → ℚ) (pbc : ℕ → ℤ) : ℕ → ℚ
  | 0 => (pbc 0 : ℚ) * h_rate 0 + (pbc 5 : ℚ) * h_rate 5 +
      (pbc 4 : ℚ) * h_rate 4
  | 1 => (pbc 1 : ℚ) * h_rate 1 + (pbc 3 : ℚ) * h_rate 3
  | 2 => (pbc 2 : ℚ) * h_rate 2
  | _ => 0

/-- One record of the deform branch of `pack_comm_vel` (lines 309-334):
note the source tests `mask[i]` with `i` the loop position, while the
packed data belongs to slot `j = list[i]`. -/
def pcv_block (s : Store) (i j : ℕ) (dx dy dz : ℚ) (dv : ℕ → ℚ)
    (bit : ℕ) (pbc : ℕ → ℤ) : List Word :=
  [.R (s.x j 0 + dx), .R (s.x j 1 + dy), .R (s.x j 2 + dz)] ++
  (if s.mask i &&& bit ≠ 0 then
     [.R (s.v j 0 + dv 0), .R (s.v j 1 + dv 1), .R (s.v j 2 + dv 2)]
   else [.R (s.v j 0), .R (s.v j 1), .R (s.v j 2)]) ++
  [.I (remapImg (s.image j) (pbc 0) (pbc 1) (pbc 2))]

def pcv_deform_loop (s : Store) (i : ℕ) (list : List ℕ) (dx dy dz : ℚ)
    (dv : ℕ → ℚ) (bit : ℕ) (pbc : ℕ → ℤ) : List Word :=
  match list with
  | [] => []
  | j :: rest =>
      pcv_block s i j dx dy dz dv bit pbc ++
        pcv_deform_loop s (i + 1) rest dx dy dz dv bit pbc

/-- `AtomVecRBC::pack_comm_vel` (lines 239-355, all branches). -/
def pack_comm_vel (s : Store) (dom : DomainBox) (list : List ℕ)
    (pbc_flag : Bool) (pbc : ℕ → ℤ) (deform_vremap : Bool)
    (h_rate : ℕ → ℚ) (deform_groupbit : ℕ) : List Word :=
  if pbc_flag = false then
    list.flatMap fun j =>
      [.R (s.x j 0), .R (s.x j 1), .R (s.x j 2),
       .R (s.v j 0), .R (s.v j 1), .R (s.v j 2), .I (s.image j)]
  else
    let dx : ℚ := if dom.triclinic = false then (pbc 0 : ℚ) * dom.xprd
      else (pbc 0 : ℚ) * dom.xprd + (pbc 5 : ℚ) * dom.xy +
        (pbc 4 : ℚ) * dom.xz
    let dy : ℚ := if dom.triclinic = false then (pbc 1 : ℚ) * dom.yprd
      else (pbc 1 : ℚ) * dom.yprd + (pbc 3 : ℚ) * dom.yz
    let dz : ℚ := (pbc 2 : ℚ) * dom.zprd
    if deform_vremap = false then
      list.flatMap fun j =>
        [.R (s.x j 0 + dx), .R (s.x j 1 + dy), .R (s.x j 2 + dz),
         .R (s.v j 0), .R (s.v j 1), .R (s.v j 2),
         .I (remapImg (s.image j) (pbc 0) (pbc 1) (pbc 2))]
    else
      pcv_deform_loop s 0 list dx dy dz (dv_of h_rate pbc)
        deform_groupbit pbc

/-- One record of the deform branch of `pack_border_vel` (lines 572-617):
again the source tests `mask[i]` with `i` the loop position. -/
def pbv_block (s : Store) (i j : ℕ) (dx dy dz : ℚ) (dv : ℕ → ℚ)
    (bit : ℕ) (pbc : ℕ → ℤ) : List Word :=
  [.R (s.x j 0 + dx), .R (s.x j 1 + dy), .R (s.x j 2 + dz),
   .R ((s.tag j : ℚ)), .R ((s.type j : ℚ)), .R ((s.mask j : ℚ)),
   .R ((s.molecule j : ℚ))] ++
  (if s.mask i &&& bit ≠ 0 then
     [.R (s.v j 0 + dv 0), .R (s.v j 1 + dv 1), .R (s.v j 2 + dv 2)]
   else [.R (s.v j 0), .R (s.v j 1), .R (s.v j 2)]) ++
  [.I (remapImg (s.image j) (pbc 0) (pbc 1) (pbc 2))]

def pbv_deform_loop (s : Store) (i : ℕ) (list : List ℕ) (dx dy dz : ℚ)
    (dv : ℕ → ℚ) (bit : ℕ) (pbc : ℕ → ℤ) : List Word :=
  match list with
  | [] => []
  | j :: rest =>
      pbv_block s i j dx dy dz dv bit pbc ++
        pbv_deform_loop s (i + 1) rest dx dy dz dv bit pbc

/-- `AtomVecRBC::pack_border_vel` (lines 496-626, no registered
extensions).  In the triclinic branch the displacement is `pbc[k]`
itself. -/
def pack_border_vel (s : Store) (dom : DomainBox) (list : List ℕ)
    (pbc_flag : Bool) (pbc : ℕ → ℤ) (deform_vremap : Bool)
    (h_rate : ℕ → ℚ) (deform_groupbit : ℕ) : List Word :=
  if pbc_flag = false then
    list.flatMap fun j =>
      [.R (s.x j 0), .R (s.x j 1), .R (s.x j 2),
       .R ((s.tag j : ℚ)), .R ((s.type j : ℚ)), .R ((s.mask j : ℚ)),
       .R ((s.molecule j : ℚ)),
       .R (s.v j 0), .R (s.v j 1), .R (s.v j 2), .I (s.image j)]
  else
    let dx : ℚ := if dom.triclinic = false then (pbc 0 : ℚ) * dom.xprd
      else (pbc 0 : ℚ)
    let dy : ℚ := if dom.triclinic = false then (pbc 1 : ℚ) * dom.yprd
      else (pbc 1 : ℚ)
    let dz : ℚ := if dom.triclinic = false then (pbc 2 : ℚ) * dom.zprd
      else (pbc 2 : ℚ)
    if deform_vremap = false then
      list.flatMap fun j =>
        [.R (s.x j 0 + dx), .R (s.x j 1 + dy), .R (s.x j 2 + dz),
         .R ((s.tag j : ℚ)), .R ((s.type j : ℚ)), .R ((s.mask j : ℚ)),
         .R ((s.molecule j : ℚ)),
         .R (s.v j 0), .R (s.v j 1), .R (s.v j 2),
         .I (remapImg (s.image j) (pbc 0) (pbc 1) (pbc 2))]
    else
      pbv_deform_loop s 0 list dx dy dz (dv_of h_rate pbc)
        deform_groupbit pbc

theorem pcv_block_length (s : Store) (i j : ℕ) (dx dy dz : ℚ)
    (dv : ℕ → ℚ) (bit : ℕ) (pbc : ℕ → ℤ) :
    (pcv_block s i j dx dy dz dv bit pbc).length = 7 := by
  unfold pcv_block
  split <;> rfl

theorem pbv_block_length (s : Store) (i j : ℕ) (dx dy dz : ℚ)
    (dv : ℕ → ℚ) (bit : ℕ) (pbc : ℕ → ℤ) :
    (pbv_block s i j dx dy dz dv bit pbc).length = 11 := by
  unfold pbv_block
  split <;> rfl

theorem pcv_block_vel (s : Store) (i j : ℕ) (dx dy dz : ℚ) (dv : ℕ → ℚ)
    (bit : ℕ) (pbc : ℕ → ℤ) (d : ℕ) (hd : d < 3) (rest : List Word) :
    (pcv_block s i j dx dy dz dv bit pbc ++ rest).getD (3 + d) (.R 0) =
      .R (if s.mask i &&& bit ≠ 0 then s.v j d + dv d else s.v j d) := by
  unfold pcv_block
  split <;> interval_cases d <;> simp

theorem pbv_block_vel (s : Store) (i j : ℕ) (dx dy dz : ℚ) (dv : ℕ → ℚ)
    (bit : ℕ) (pbc : ℕ → ℤ) (d : ℕ) (hd : d < 3) (rest : List Word) :
    (pbv_block s i j dx dy dz dv bit pbc ++ rest).getD (7 + d) (.R 0) =
      .R (if s.mask i &&& bit ≠ 0 then s.v j d + dv d else s.v j d) := by
  unfold pbv_block
  split <;> interval_cases d <;> simp

theorem pcv_deform_loop_getD :
    ∀ (list : List ℕ) (s : Store) (i0 : ℕ) (dx dy dz : ℚ) (dv : ℕ → ℚ)
      (bit : ℕ) (pbc : ℕ → ℤ) (k : ℕ), k < list.length → ∀ d, d < 3 →
      (pcv_deform_loop s i0 list dx dy dz dv bit pbc).getD
          (7 * k + (3 + d)) (.R 0) =
        .R (if s.mask (i0 + k) &&& bit ≠ 0 then
              s.v (list.getD k 0) d + dv d
            else s.v (list.getD k 0) d) := by
  intro list
  induction list with
  | nil => intro s i0 dx dy dz dv bit pbc k hk; simp at hk
  | cons j rest ih =>
      intro s i0 dx dy dz dv bit pbc k hk d hd
      rcases Nat.eq_zero_or_pos k with hk0 | hkpos
      · subst hk0
        show (pcv_block s i0 j dx dy dz dv bit pbc ++ _).getD _ _ = _
        simpa using pcv_block_vel s i0 j dx dy dz dv bit pbc d hd _
      · obtain ⟨k', rfl⟩ :=
          Nat.exists_eq_succ_of_ne_zero (Nat.pos_iff_ne_zero.mp hkpos)
        have hk' : k' < rest.length := by simp at hk; omega
        show (pcv_block s i0 j dx dy dz dv bit pbc ++ _).getD _ _ = _
        rw [List.getD_append_right]
        · rw [pcv_block_length]
          have h1 : 7 * (k' + 1) + (3 + d) - 7 = 7 * k' + (3 + d) := by
            rw [Nat.mul_succ]; omega
          rw [h1, ih s (i0 + 1) dx dy dz dv bit pbc k' hk' d hd]
          have h2 : i0 + 1 + k' = i0 + (k' + 1) := by omega
          rw [h2]
          simp only [List.getD_cons_succ]
        · rw [pcv_block_length, Nat.mul_succ]; omega

theorem pbv_deform_loop_getD :
    ∀ (list : List ℕ) (s : Store) (i0 : ℕ) (dx dy dz : ℚ) (dv : ℕ → ℚ)
      (bit : ℕ) (pbc : ℕ → ℤ) (k : ℕ), k < list.length → ∀ d, d < 3 →
      (pbv_deform_loop s i0 list dx dy dz dv bit pbc).getD
          (11 * k + (7 + d)) (.R 0) =
        .R (if s.mask (i0 + k) &&& bit ≠ 0 then
              s.v (list.getD k 0) d + dv d
            else s.v (list.getD k 0) d) := by
  intro list
  induction list with
  | nil => intro s i0 dx dy dz dv bit pbc k hk; simp at hk
  | cons j rest ih =>
      intro s i0 dx dy dz dv bit pbc k hk d hd
      rcases Nat.eq_zero_or_pos k with hk0 | hkpos
      · subst hk0
        show (pbv_block s i0 j dx dy dz dv bit pbc ++ _).getD _ _ = _
        simpa using pbv_block_vel s i0 j dx dy dz dv bit pbc d hd _
      · obtain ⟨k', rfl⟩ :=
          Nat.exists_eq_succ_of_ne_zero (Nat.pos_iff_ne_zero.mp hkpos)
        have hk' : k' < rest.length := by simp at hk; omega
        show (pbv_block s i0 j dx dy dz dv bit pbc ++ _).getD _ _ = _
        rw [List.getD_append_right]
        · rw [pbv_block_length]
          have h1 : 11 * (k' + 1) + (7 + d) - 11 = 11 * k' + (7 + d) := by
            rw [Nat.mul_succ]; omega
          rw [h1, ih s (i0 + 1) dx dy dz dv bit pbc k' hk' d hd]
          have h2 : i0 + 1 + k' = i0 + (k' + 1) := by omega
          rw [h2]
          simp only [List.getD_cons_succ]
        · rw [pbv_block_length, Nat.mul_succ]; omega

/-- Store for the C6 counterexample: slot 0 is not in the deformation
group, slot 1 is, and slot 1 has velocity `(5,0,0)`. -/
def c6s : Store :=
  { zeroStore with
    mask := fun i => if i = 1 then 1 else 0,
    v := fun i d => if i = 1 ∧ d = 0 then 5 else 0 }

/-- Shear rate `h_rate = (1,0,0,0,0,0)` for the C6 scenario. -/
def c6hr : ℕ → ℚ := fun d => if d = 0 then 1 else 0

/-- C6 counterexample: with the index list `[1]`, the particle at slot
`list[0] = 1` is flagged as deforming, yet `pack_comm_vel` packs its
velocity unchanged, because the source tests `mask[i]` at the loop
position `i = 0` instead of `mask[list[i]]`.  The claimed velocity with
correction differs from what is packed. -/
theorem c6_counterexample_mask_index :
    c6s.mask (([1] : List ℕ).getD 0 0) &&& 1 ≠ 0 ∧
    (pack_comm_vel c6s c2dom [1] true c2pbc true c6hr 1).getD 3 (.R 0) =
      .R (c6s.v 1 0) ∧
    (Word.R (c6s.v 1 0)) ≠ .R (c6s.v 1 0 + dv_of c6hr c2pbc 0) := by
  refine ⟨by simp [c6s, zeroStore], ?_, ?_⟩
  · simp [pack_comm_vel, pcv_deform_loop, pcv_block, c6s, c2dom, c2pbc,
      zeroStore, Nat.zero_and]
  · simp [c6s, c6hr, c2pbc, dv_of, zeroStore]

/-- C6 (amended: in the deform branch the velocity correction is applied
iff the mask at the loop position `k` — not at the listed slot
`list[k]` — contains the deformation group bit): for every position `k`
in the index list, `pack_comm_vel` and `pack_border_vel` pack the
velocity of slot `list[k]` with the per-axis correction added iff
`mask[k] & deform_groupbit` is nonzero. -/
theorem c6_deform_mask_uses_loop_index (s : Store) (dom : DomainBox)
    (list : List ℕ) (pbc : ℕ → ℤ) (h_rate : ℕ → ℚ) (bit : ℕ)
    (k : ℕ) (hk : k < list.length) (d : ℕ) (hd : d < 3) :
    (pack_comm_vel s dom list true pbc true h_rate bit).getD
        (7 * k + (3 + d)) (.R 0) =
      .R (if s.mask k &&& bit ≠ 0 then
            s.v (list.getD k 0) d + dv_of h_rate pbc d
          else s.v (list.getD k 0) d) ∧
    (pack_border_vel s dom list true pbc true h_rate bit).getD
        (11 * k + (7 + d)) (.R 0) =
      .R (if s.mask k &&& bit ≠ 0 then
            s.v (list.getD k 0) d + dv_of h_rate pbc d
          else s.v (list.getD k 0) d) := by
  constructor
  · simp only [pack_comm_vel]
    rw [if_neg (by simp)]
    rw [if_neg (by simp)]
    rw [pcv_deform_loop_getD list s 0 _ _ _ _ _ _ k hk d hd, Nat.zero_add]
  · simp only [pack_border_vel]
    rw [if_neg (by simp)]
    rw [if_neg (by simp)]
    rw [pbv_deform_loop_getD list s 0 _ _ _ _ _ _ k hk d hd, Nat.zero_add]

/-- C6 witness: the amended statement at the concrete scenario of the
counterexample, position `k = 0`, component `d = 0`. -/
theorem c6_deform_mask_uses_loop_index_witness :
    (0 : ℕ) < ([1] : List ℕ).length ∧ (0 : ℕ) < 3 ∧
      ((pack_comm_vel c6s c2dom [1] true c2pbc true c6hr 1).getD
          (7 * 0 + (3 + 0)) (.R 0) =
        .R (if c6s.mask 0 &&& 1 ≠ 0 then
              c6s.v (([1] : List ℕ).getD 0 0) 0 + dv_of c6hr c2pbc 0
            else c6s.v (([1] : List ℕ).getD 0 0) 0) ∧
      (pack_border_vel c6s c2dom [1] true c2pbc true c6hr 1).getD
          (11 * 0 + (7 + 0)) (.R 0) =
        .R (if c6s.mask 0 &&& 1 ≠ 0 then
              c6s.v (([1] : List ℕ).getD 0 0) 0 + dv_of c6hr c2pbc 0
            else c6s.v (([1] : List ℕ).getD 0 0) 0)) :=
  ⟨by decide, by decide,
    c6_deform_mask_uses_loop_index c6s c2dom [1] c2pbc c6hr 1 0 (by decide)
      0 (by decide)⟩

/-- Words 1.. of the `AtomVecRBC::pack_exchange` record (lines 712-765,
no registered extensions): fixed fields, then each topology list prefixed
by its count, then the three special-neighbor counts and the special
slice. -/
def pack_exchange_body (s : Store) (i : ℕ) : List Word :=
  [.R (s.x i 0), .R (s.x i 1), .R (s.x i 2),
   .R (s.v i 0), .R (s.v i 1), .R (s.v i 2),
   .R ((s.tag i : ℚ)), .R ((s.type i : ℚ)), .R ((s.mask i : ℚ)),
   .I (s.image i), .R ((s.molecule i : ℚ)),
   .R ((s.num_bond i : ℚ))] ++
  seg (fun k => [.R ((s.bond_type i k : ℚ)), .R ((s.bond_atom i k : ℚ)),
    .R (s.bond_r0 i k)]) 0 (s.num_bond i) ++
  [.R ((s.num_angle i : ℚ))] ++
  seg (fun k => [.R ((s.angle_type i k : ℚ)), .R ((s.angle_atom1 i k : ℚ)),
    .R ((s.angle_atom2 i k : ℚ)), .R ((s.angle_atom3 i k : ℚ)),
    .R (s.angle_a0 i k)]) 0 (s.num_angle i) ++
  [.R ((s.num_dihedral i : ℚ))] ++
  seg (fun k => [.R ((s.dihedral_type i k : ℚ)),
    .R ((s.dihedral_atom1 i k : ℚ)), .R ((s.dihedral_atom2 i k : ℚ)),
    .R ((s.dihedral_atom3 i k : ℚ)), .R ((s.dihedral_atom4 i k : ℚ))]) 0
    (s.num_dihedral i) ++
  [.R ((s.nspecial i 0 : ℚ)), .R ((s.nspecial i 1 : ℚ)),
   .R ((s.nspecial i 2 : ℚ))] ++
  seg (fun k => [.R ((s.special i k : ℚ))]) 0 (s.nspecial i 2)

/-- `AtomVecRBC::pack_exchange`: word 0 holds the total word count,
patched in at the end (`buf[0] = m`). -/
def pack_exchange (s : Store) (i : ℕ) : List Word :=
  .R (((1 + (pack_exchange_body s i).length : ℕ) : ℚ)) ::
    pack_exchange_body s i

/-- The word count returned by `pack_exchange`. -/
def pack_exchange_ret (s : Store) (i : ℕ) : ℕ :=
  1 + (pack_exchange_body s i).length

/-- Reader for `n` three-word groups, returning the groups and the
remaining buffer. -/
def read3r : ℕ → List Word → List (Word × Word × Word) × List Word
  | 0, buf => ([], buf)
  | n + 1, a :: b :: c :: rest =>
      let p := read3r n rest
      ((a, b, c) :: p.1, p.2)
  | _ + 1, buf => ([], buf)

/-- Reader for `n` five-word groups. -/
def read5r : ℕ → List Word →
    List (Word × Word × Word × Word × Word) × List Word
  | 0, buf => ([], buf)
  | n + 1, a :: b :: c :: d :: e :: rest =>
      let p := read5r n rest
      ((a, b, c, d, e) :: p.1, p.2)
  | _ + 1, buf => ([], buf)

/-- Reader for `n` single words. -/
def read1r : ℕ → List Word → List Word × List Word
  | 0, buf => ([], buf)
  | n + 1, a :: rest =>
      let p := read1r n rest
      (a :: p.1, p.2)
  | _ + 1, buf => ([], buf)

/-- `AtomVecRBC::unpack_exchange` (lines 769-826, no registered
extensions): parse one migration record and append it as a new owned
particle at slot `nlocal`; return the number of words consumed.  A buffer
too short for its own counts falls through to `(s, 0)` (unreachable for
buffers produced by `pack_exchange`). -/
def unpack_exchange (s : Store) (buf : List Word) : Store × ℕ :=
  match buf with
  | _w0 :: x0 :: x1 :: x2 :: v0 :: v1 :: v2 :: tg :: tp :: mk :: im ::
      mol :: nbW :: rest =>
    let nl := s.nlocal
    let nb := (wi nbW).toNat
    let pb := read3r nb rest
    match pb.2 with
    | naW :: rest2 =>
      let na := (wi naW).toNat
      let pa := read5r na rest2
      match pa.2 with
      | ndW :: rest3 =>
        let nd := (wi ndW).toNat
        let pd := read5r nd rest3
        match pd.2 with
        | n0W :: n1W :: n2W :: rest4 =>
          let ns2 := (wi n2W).toNat
          let ps := read1r ns2 rest4
          ({ s with
              nlocal := s.nlocal + 1,
              x := updRow3 s.x nl (wq x0) (wq x1) (wq x2),
              v := updRow3 s.v nl (wq v0) (wq v1) (wq v2),
              tag := upd1 s.tag nl (wi tg),
              type := upd1 s.type nl (wi tp),
              mask := upd1 s.mask nl (wi mk).toNat,
              image := upd1 s.image nl (wtag im),
              molecule := upd1 s.molecule nl (wi mol),
              num_bond := upd1 s.num_bond nl nb,
              bond_type := updRow s.bond_type nl nb
                (fun k => wi (pb.1.getD k (.R 0, .R 0, .R 0)).1),
              bond_atom := updRow s.bond_atom nl nb
                (fun k => wi (pb.1.getD k (.R 0, .R 0, .R 0)).2.1),
              bond_r0 := updRow s.bond_r0 nl nb
                (fun k => wq (pb.1.getD k (.R 0, .R 0, .R 0)).2.2),
              num_angle := upd1 s.num_angle nl na,
              angle_type := updRow s.angle_type nl na
                (fun k => wi (pa.1.getD k (.R 0, .R 0, .R 0, .R 0, .R 0)).1),
              angle_atom1 := updRow s.angle_atom1 nl na
                (fun k => wi (pa.1.getD k (.R 0, .R 0, .R 0, .R 0, .R 0)).2.1),
              angle_atom2 := updRow s.angle_atom2 nl na
                (fun k =>
                  wi (pa.1.getD k (.R 0, .R 0, .R 0, .R 0, .R 0)).2.2.1),
              angle_atom3 := updRow s.angle_atom3 nl na
                (fun k =>
                  wi (pa.1.getD k (.R 0, .R 0, .R 0, .R 0, .R 0)).2.2.2.1),
              angle_a0 := updRow s.angle_a0 nl na
                (fun k =>
                  wq (pa.1.getD k (.R 0, .R 0, .R 0, .R 0, .R 0)).2.2.2.2),
              num_dihedral := upd1 s.num_dihedral nl nd,
              dihedral_type := updRow s.dihedral_type nl nd
                (fun k => wi (pd.1.getD k (.R 0, .R 0, .R 0, .R 0, .R 0)).1),
              dihedral_atom1 := updRow s.dihedral_atom1 nl nd
                (fun k => wi (pd.1.getD k (.R 0, .R 0, .R 0, .R 0, .R 0)).2.1),
              dihedral_atom2 := updRow s.dihedral_atom2 nl nd
                (fun k =>
                  wi (pd.1.getD k (.R 0, .R 0, .R 0, .R 0, .R 0)).2.2.1),
              dihedral_atom3 := updRow s.dihedral_atom3 nl nd
                (fun k =>
                  wi (pd.1.getD k (.R 0, .R 0, .R 0, .R 0, .R 0)).2.2.2.1),
              dihedral_atom4 := updRow s.dihedral_atom4 nl nd
                (fun k =>
                  wi (pd.1.getD k (.R 0, .R 0, .R 0, .R 0, .R 0)).2.2.2.2),
              nspecial := upd2 (upd2 (upd2 s.nspecial nl 0 (wi n0W).toNat)
                nl 1 (wi n1W).toNat) nl 2 ns2,
              special := updRow s.special nl ns2
                (fun k => wi (ps.1.getD k (.R 0))) },
            18 + 3 * nb + 5 * na + 5 * nd + ns2)
        | _ => (s, 0)
      | _ => (s, 0)
    | _ => (s, 0)
  | _ => (s, 0)

theorem wiRn (n : ℕ) : (wi (.R ((n : ℚ)))).toNat = n := by
  rw [wi_R_nat]; simp

theorem map_range_getD {α : Type} (f : ℕ → α) (dflt : α) (n k : ℕ)
    (hk : k < n) : ((List.range n).map f).getD k dflt = f k := by
  have hlen : k < ((List.range n).map f).length := by simpa using hk
  rw [List.getD_eq_getElem _ _ hlen]
  simp

theorem read3r_seg (F G H : ℕ → Word) :
    ∀ (n start : ℕ) (rest : List Word),
      read3r n (seg (fun k => [F k, G k, H k]) start n ++ rest) =
        ((List.range n).map
          (fun k => (F (start + k), G (start + k), H (start + k))), rest) := by
  intro n
  induction n with
  | zero => intro start rest; simp [read3r, seg]
  | succ m ih =>
      intro start rest
      simp only [seg, List.cons_append, List.nil_append, List.append_assoc]
      rw [read3r]
      rw [ih (start + 1) rest]
      simp only [List.range_succ_eq_map, List.map_cons, List.map_map]
      refine Prod.ext ?_ rfl
      simp only [Nat.add_zero, List.cons.injEq, true_and]
      apply List.map_congr_left
      intro k _
      simp only [Function.comp_apply, Nat.succ_eq_add_one]
      have h : start + 1 + k = start + (k + 1) := by omega
      rw [h]

theorem read5r_seg (F G H K L : ℕ → Word) :
    ∀ (n start : ℕ) (rest : List Word),
      read5r n (seg (fun k => [F k, G k, H k, K k, L k]) start n ++ rest) =
        ((List.range n).map
          (fun k => (F (start + k), G (start + k), H (start + k),
            K (start + k), L (start + k))), rest) := by
  intro n
  induction n with
  | zero => intro start rest; simp [read5r, seg]
  | succ m ih =>
      intro start rest
      simp only [seg, List.cons_append, List.nil_append, List.append_assoc]
      rw [read5r]
      rw [ih (start + 1) rest]
      simp only [List.range_succ_eq_map, List.map_cons, List.map_map]
      refine Prod.ext ?_ rfl
      simp only [Nat.add_zero, List.cons.injEq, true_and]
      apply List.map_congr_left
      intro k _
      simp only [Function.comp_apply, Nat.succ_eq_add_one]
      have h : start + 1 + k = start + (k + 1) := by omega
      rw [h]

theorem read1r_seg (F : ℕ → Word) :
    ∀ (n start : ℕ) (rest : List Word),
      read1r n (seg (fun k => [F k]) start n ++ rest) =
        ((List.range n).map (fun k => F (start + k)), rest) := by
  intro n
  induction n with
  | zero => intro start rest; simp [read1r, seg]
  | succ m ih =>
      intro start rest
      simp only [seg, List.cons_append, List.nil_append, List.append_assoc]
      rw [read1r]
      rw [ih (start + 1) rest]
      simp only [List.range_succ_eq_map, List.map_cons, List.map_map]
      refine Prod.ext ?_ rfl
      simp only [Nat.add_zero, List.cons.injEq, true_and]
      apply List.map_congr_left
      intro k _
      simp only [Function.comp_apply, Nat.succ_eq_add_one]
      have h : start + 1 + k = start + (k + 1) := by omega
      rw [h]

theorem read1r_seg_nil (F : ℕ → Word) (n start : ℕ) :
    read1r n (seg (fun k => [F k]) start n) =
      ((List.range n).map (fun k => F (start + k)), []) := by
  have h := read1r_seg F n start []
  rwa [List.append_nil] at h

/-- C5: `pack_exchange(i)` followed immediately by `unpack_exchange`
appends a new owned particle (at the receiver's `nlocal`) whose position,
velocity, tag, type, group mask, image code, molecule id, topology counts
and per-entry fields, and special-neighbor counts plus slice all equal
slot `i`'s values; word 0 of the buffer equals the word count
`pack_exchange` returns, and `unpack_exchange` returns that same count. -/
theorem c5_exchange_roundtrip (s s2 : Store) (i : ℕ) :
    (∀ d, d < 3 →
      (unpack_exchange s2 (pack_exchange s i)).1.x s2.nlocal d = s.x i d) ∧
    (∀ d, d < 3 →
      (unpack_exchange s2 (pack_exchange s i)).1.v s2.nlocal d = s.v i d) ∧
    (unpack_exchange s2 (pack_exchange s i)).1.tag s2.nlocal = s.tag i ∧
    (unpack_exchange s2 (pack_exchange s i)).1.type s2.nlocal = s.type i ∧
    (unpack_exchange s2 (pack_exchange s i)).1.mask s2.nlocal = s.mask i ∧
    (unpack_exchange s2 (pack_exchange s i)).1.image s2.nlocal = s.image i ∧
    (unpack_exchange s2 (pack_exchange s i)).1.molecule s2.nlocal =
      s.molecule i ∧
    (unpack_exchange s2 (pack_exchange s i)).1.num_bond s2.nlocal =
      s.num_bond i ∧
    (unpack_exchange s2 (pack_exchange s i)).1.num_angle s2.nlocal =
      s.num_angle i ∧
    (unpack_exchange s2 (pack_exchange s i)).1.num_dihedral s2.nlocal =
      s.num_dihedral i ∧
    (∀ k, k < s.num_bond i →
      (unpack_exchange s2 (pack_exchange s i)).1.bond_type s2.nlocal k =
          s.bond_type i k ∧
      (unpack_exchange s2 (pack_exchange s i)).1.bond_atom s2.nlocal k =
          s.bond_atom i k ∧
      (unpack_exchange s2 (pack_exchange s i)).1.bond_r0 s2.nlocal k =
          s.bond_r0 i k) ∧
    (∀ k, k < s.num_angle i →
      (unpack_exchange s2 (pack_exchange s i)).1.angle_type s2.nlocal k =
          s.angle_type i k ∧
      (unpack_exchange s2 (pack_exchange s i)).1.angle_atom1 s2.nlocal k =
          s.angle_atom1 i k ∧
      (unpack_exchange s2 (pack_exchange s i)).1.angle_atom2 s2.nlocal k =
          s.angle_atom2 i k ∧
      (unpack_exchange s2 (pack_exchange s i)).1.angle_atom3 s2.nlocal k =
          s.angle_atom3 i k ∧
      (unpack_exchange s2 (pack_exchange s i)).1.angle_a0 s2.nlocal k =
          s.angle_a0 i k) ∧
    (∀ k, k < s.num_dihedral i →
      (unpack_exchange s2 (pack_exchange s i)).1.dihedral_type s2.nlocal k =
          s.dihedral_type i k ∧
      (unpack_exchange s2 (pack_exchange s i)).1.dihedral_atom1 s2.nlocal k =
          s.dihedral_atom1 i k ∧
      (unpack_exchange s2 (pack_exchange s i)).1.dihedral_atom2 s2.nlocal k =
          s.dihedral_atom2 i k ∧
      (unpack_exchange s2 (pack_exchange s i)).1.dihedral_atom3 s2.nlocal k =
          s.dihedral_atom3 i k ∧
      (unpack_exchange s2 (pack_exchange s i)).1.dihedral_atom4 s2.nlocal k =
          s.dihedral_atom4 i k) ∧
    (∀ c, c < 3 →
      (unpack_exchange s2 (pack_exchange s i)).1.nspecial s2.nlocal c =
        s.nspecial i c) ∧
    (∀ k, k < s.nspecial i 2 →
      (unpack_exchange s2 (pack_exchange s i)).1.special s2.nlocal k =
        s.special i k) ∧
    (unpack_exchange s2 (pack_exchange s i)).1.nlocal = s2.nlocal + 1 ∧
    (pack_exchange s i).getD 0 (.R 0) =
      .R ((pack_exchange_ret s i : ℚ)) ∧
    (unpack_exchange s2 (pack_exchange s i)).2 = pack_exchange_ret s i := by
  have hlb := seg_length (fun k => [Word.R ((s.bond_type i k : ℚ)),
    Word.R ((s.bond_atom i k : ℚ)), Word.R (s.bond_r0 i k)]) 3
    (fun _ => rfl) (s.num_bond i) 0
  have hla := seg_length (fun k => [Word.R ((s.angle_type i k : ℚ)),
    Word.R ((s.angle_atom1 i k : ℚ)), Word.R ((s.angle_atom2 i k : ℚ)),
    Word.R ((s.angle_atom3 i k : ℚ)), Word.R (s.angle_a0 i k)]) 5
    (fun _ => rfl) (s.num_angle i) 0
  have hld := seg_length (fun k => [Word.R ((s.dihedral_type i k : ℚ)),
    Word.R ((s.dihedral_atom1 i k : ℚ)),
    Word.R ((s.dihedral_atom2 i k : ℚ)),
    Word.R ((s.dihedral_atom3 i k : ℚ)),
    Word.R ((s.dihedral_atom4 i k : ℚ))]) 5
    (fun _ => rfl) (s.num_dihedral i) 0
  have hls := seg_length (fun k => [Word.R ((s.special i k : ℚ))]) 1
    (fun _ => rfl) (s.nspecial i 2) 0
  have hret : pack_exchange_ret s i =
      18 + 3 * s.num_bond i + 5 * s.num_angle i + 5 * s.num_dihedral i +
        s.nspecial i 2 := by
    simp [pack_exchange_ret, pack_exchange_body, hlb, hla, hld, hls]
    ring
  simp only [pack_exchange, pack_exchange_body, List.cons_append,
    List.nil_append, List.append_assoc]
  simp only [unpack_exchange, wiRn, read3r_seg, read5r_seg, read1r_seg]
  refine ⟨?_, ?_, ?_, ?_, ?_, ?_, ?_, ?_, ?_, ?_, ?_, ?_, ?_, ?_, ?_, ?_,
    ?_, ?_⟩
  · intro d hd
    interval_cases d <;> simp [updRow3, upd2, wq]
  · intro d hd
    interval_cases d <;> simp [updRow3, upd2, wq]
  · simp [upd1, wi_R_int]
  · simp [upd1, wi_R_int]
  · simp [upd1]
  · simp [upd1, wtag]
  · simp [upd1, wi_R_int]
  · simp [upd1]
  · simp [upd1]
  · simp [upd1]
  · intro k hk
    refine ⟨?_, ?_, ?_⟩ <;>
      simp [updRow, hk, map_range_getD _ _ _ k hk, wi_R_int, wq]
  · intro k hk
    refine ⟨?_, ?_, ?_, ?_, ?_⟩ <;>
      simp [updRow, hk, map_range_getD _ _ _ k hk, wi_R_int, wq]
  · intro k hk
    refine ⟨?_, ?_, ?_, ?_, ?_⟩ <;>
      simp [updRow, hk, map_range_getD _ _ _ k hk, wi_R_int, wq]
  · intro c hc
    interval_cases c <;> simp [upd2, wiRn]
  · intro k hk
    rw [read1r_seg_nil]
    simp [updRow, hk, map_range_getD _ _ _ k hk, wi_R_int]
  · simp
  · rw [hret]
    simp
    rw [hlb, hla, hld, hls]
    push_cast
    ring
  · rw [hret]

/-- Store for the C5 witness: one owned particle with 2 bonds (one of
them with a negative type marker), 1 angle, 0 dihedrals and one special
neighbor. -/
def c5s : Store :=
  { zeroStore with
    nlocal := 1,
    tag := fun _ => 7,
    type := fun _ => 2,
    mask := fun _ => 1,
    image := fun _ => 42,
    x := fun _ d => (d : ℚ) + 1,
    v := fun _ d => (d : ℚ) - 5,
    molecule := fun _ => 3,
    num_bond := fun _ => 2,
    bond_type := fun _ k => if k = 0 then -4 else 5,
    bond_atom := fun _ k => (k : ℤ) + 8,
    bond_r0 := fun _ _ => 7 / 2,
    num_angle := fun _ => 1,
    angle_type := fun _ _ => 6,
    angle_atom1 := fun _ _ => 11,
    angle_atom2 := fun _ _ => 12,
    angle_atom3 := fun _ _ => 13,
    angle_a0 := fun _ _ => 2,
    num_dihedral := fun _ => 0,
    nspecial := fun _ c => if c = 2 then 1 else 0,
    special := fun _ _ => 9 }

/-- C5 witness: the migration round trip at the concrete particle with
2 bonds, 1 angle, 0 dihedrals, extracting the position component `d = 0`
and the first bond entry. -/
theorem c5_exchange_roundtrip_witness :
    (0 : ℕ) < 3 ∧ (0 : ℕ) < c5s.num_bond 0 ∧
      (unpack_exchange zeroStore (pack_exchange c5s 0)).1.x
          zeroStore.nlocal 0 = c5s.x 0 0 ∧
      (unpack_exchange zeroStore (pack_exchange c5s 0)).1.bond_type
          zeroStore.nlocal 0 = c5s.bond_type 0 0 := by
  obtain ⟨hx, -, -, -, -, -, -, -, -, -, hb, -⟩ :=
    c5_exchange_roundtrip c5s zeroStore 0
  exact ⟨by decide, by decide, hx 0 (by decide), (hb 0 (by decide)).1⟩

/-- `AtomVecRBC::size_restart` (lines 833-847, no registered extensions):
per owned particle a fixed overhead of 15 words plus two words per bond,
five per angle and five per dihedral. -/
def size_restart (s : Store) : ℕ :=
  ((List.range s.nlocal).map
    (fun i => 15 + 2 * s.num_bond i + 5 * s.num_angle i +
      5 * s.num_dihedral i)).sum

/-- The bond payload of the restart record (lines 872-877): three words
per bond, with the type written as `MAX(t, -t)`. -/
def bondSegR (s : Store) (i : ℕ) : List Word :=
  seg (fun k => [.R ((max (s.bond_type i k) (-s.bond_type i k) : ℚ)),
    .R ((s.bond_atom i k : ℚ)), .R (s.bond_r0 i k)]) 0 (s.num_bond i)

/-- The angle payload of the restart record (five words per angle, type
written as `MAX(t, -t)`). -/
def angleSegR (s : Store) (i : ℕ) : List Word :=
  seg (fun k => [.R ((max (s.angle_type i k) (-s.angle_type i k) : ℚ)),
    .R ((s.angle_atom1 i k : ℚ)), .R ((s.angle_atom2 i k : ℚ)),
    .R ((s.angle_atom3 i k : ℚ)), .R (s.angle_a0 i k)]) 0 (s.num_angle i)

/-- The dihedral payload of the restart record (five words per dihedral,
type written as `MAX(t, -t)`). -/
def dihedralSegR (s : Store) (i : ℕ) : List Word :=
  seg (fun k =>
    [.R ((max (s.dihedral_type i k) (-s.dihedral_type i k) : ℚ)),
     .R ((s.dihedral_atom1 i k : ℚ)), .R ((s.dihedral_atom2 i k : ℚ)),
     .R ((s.dihedral_atom3 i k : ℚ)), .R ((s.dihedral_atom4 i k : ℚ))]) 0
    (s.num_dihedral i)

/-- Words 1.. of the `AtomVecRBC::pack_restart` record (lines 855-903, no
registered extensions): fixed fields, then each topology list prefixed by
its count. -/
def pack_restart_body (s : Store) (i : ℕ) : List Word :=
  [.R (s.x i 0), .R (s.x i 1), .R (s.x i 2),
   .R ((s.tag i : ℚ)), .R ((s.type i : ℚ)), .R ((s.mask i : ℚ)),
   .I (s.image i),
   .R (s.v i 0), .R (s.v i 1), .R (s.v i 2),
   .R ((s.molecule i : ℚ)),
   .R ((s.num_bond i : ℚ))] ++
  bondSegR s i ++
  [.R ((s.num_angle i : ℚ))] ++
  angleSegR s i ++
  [.R ((s.num_dihedral i : ℚ))] ++
  dihedralSegR s i

/-- `AtomVecRBC::pack_restart`: word 0 holds the total word count,
patched in at the end (`buf[0] = m`). -/
def pack_restart (s : Store) (i : ℕ) : List Word :=
  .R (((1 + (pack_restart_body s i).length : ℕ) : ℚ)) ::
    pack_restart_body s i

/-- Store for C1: a single owned particle with one bond and no angles or
dihedrals. -/
def c1s : Store :=
  { zeroStore with nlocal := 1, num_bond := fun _ => 1 }

/-- C1 (code bug): for one owned particle with one bond, `size_restart`
returns 17 words (counting two per bond) but `pack_restart` writes 18
words (a bond entry is three words: type, partner tag, equilibrium
length `r0`), so a buffer pre-sized by `size_restart` is overflowed. -/
theorem c1_size_restart_undercounts_bonds :
    size_restart c1s = 17 ∧ (pack_restart c1s 0).length = 18 ∧ (17 < 18) := by
  refine ⟨?_, ?_, by decide⟩
  · decide
  · decide

theorem max_neg_eq_abs (t : ℤ) : max t (-t) = |t| := by
  rcases le_total 0 t with h | h
  · rw [abs_of_nonneg h, max_eq_left (by omega)]
  · rw [abs_of_nonpos h, max_eq_right (by omega)]

theorem sup_neg_eq_abs (q : ℚ) : q ⊔ -q = |q| :=
  (abs_eq_max_neg).symm

theorem bondSegR_length (s : Store) (i : ℕ) :
    (bondSegR s i).length = 3 * s.num_bond i :=
  seg_length (fun k => [.R ((max (s.bond_type i k) (-s.bond_type i k) : ℚ)),
    .R ((s.bond_atom i k : ℚ)), .R (s.bond_r0 i k)]) 3 (fun _ => rfl) _ 0

theorem angleSegR_length (s : Store) (i : ℕ) :
    (angleSegR s i).length = 5 * s.num_angle i :=
  seg_length (fun k => [.R ((max (s.angle_type i k) (-s.angle_type i k) : ℚ)),
    .R ((s.angle_atom1 i k : ℚ)), .R ((s.angle_atom2 i k : ℚ)),
    .R ((s.angle_atom3 i k : ℚ)), .R (s.angle_a0 i k)]) 5 (fun _ => rfl) _ 0

theorem bondSegR_getD (s : Store) (i : ℕ) (k d : ℕ) (hk : k < s.num_bond i)
    (hd : d < 3) (rest : List Word) (w : Word) :
    (bondSegR s i ++ rest).getD (3 * k + d) w =
      ([.R ((max (s.bond_type i k) (-s.bond_type i k) : ℚ)),
        .R ((s.bond_atom i k : ℚ)), .R (s.bond_r0 i k)] : List Word).getD
        d w := by
  unfold bondSegR
  rw [seg_getD (fun k =>
    [.R ((max (s.bond_type i k) (-s.bond_type i k) : ℚ)),
     .R ((s.bond_atom i k : ℚ)), .R (s.bond_r0 i k)]) 3 (fun _ => rfl) w
    (s.num_bond i) k 0 rest hk d hd]
  rw [Nat.zero_add]

theorem angleSegR_getD (s : Store) (i : ℕ) (k d : ℕ)
    (hk : k < s.num_angle i) (hd : d < 5) (rest : List Word) (w : Word) :
    (angleSegR s i ++ rest).getD (5 * k + d) w =
      ([.R ((max (s.angle_type i k) (-s.angle_type i k) : ℚ)),
        .R ((s.angle_atom1 i k : ℚ)), .R ((s.angle_atom2 i k : ℚ)),
        .R ((s.angle_atom3 i k : ℚ)), .R (s.angle_a0 i k)] :
        List Word).getD d w := by
  unfold angleSegR
  rw [seg_getD (fun k =>
    [.R ((max (s.angle_type i k) (-s.angle_type i k) : ℚ)),
     .R ((s.angle_atom1 i k : ℚ)), .R ((s.angle_atom2 i k : ℚ)),
     .R ((s.angle_atom3 i k : ℚ)), .R (s.angle_a0 i k)]) 5 (fun _ => rfl) w
    (s.num_angle i) k 0 rest hk d hd]
  rw [Nat.zero_add]

theorem dihedralSegR_getD (s : Store) (i : ℕ) (k d : ℕ)
    (hk : k < s.num_dihedral i) (hd : d < 5) (rest : List Word) (w : Word) :
    (dihedralSegR s i ++ rest).getD (5 * k + d) w =
      ([.R ((max (s.dihedral_type i k) (-s.dihedral_type i k) : ℚ)),
        .R ((s.dihedral_atom1 i k : ℚ)), .R ((s.dihedral_atom2 i k : ℚ)),
        .R ((s.dihedral_atom3 i k : ℚ)),
        .R ((s.dihedral_atom4 i k : ℚ))] : List Word).getD d w := by
  unfold dihedralSegR
  rw [seg_getD (fun k =>
    [.R ((max (s.dihedral_type i k) (-s.dihedral_type i k) : ℚ)),
     .R ((s.dihedral_atom1 i k : ℚ)), .R ((s.dihedral_atom2 i k : ℚ)),
     .R ((s.dihedral_atom3 i k : ℚ)), .R ((s.dihedral_atom4 i k : ℚ))]) 5
    (fun _ => rfl) w (s.num_dihedral i) k 0 rest hk d hd]
  rw [Nat.zero_add]

theorem dihedralSegR_getD_nil (s : Store) (i : ℕ) (k d : ℕ)
    (hk : k < s.num_dihedral i) (hd : d < 5) (w : Word) :
    (dihedralSegR s i).getD (5 * k + d) w =
      ([.R ((max (s.dihedral_type i k) (-s.dihedral_type i k) : ℚ)),
        .R ((s.dihedral_atom1 i k : ℚ)), .R ((s.dihedral_atom2 i k : ℚ)),
        .R ((s.dihedral_atom3 i k : ℚ)),
        .R ((s.dihedral_atom4 i k : ℚ))] : List Word).getD d w := by
  have h := dihedralSegR_getD s i k d hk hd [] w
  rwa [List.append_nil] at h

/-- The first 13 words of the restart record: the count word and the
twelve fixed fields. -/
def restartHead (s : Store) (i : ℕ) : List Word :=
  [.R (((1 + (pack_restart_body s i).length : ℕ) : ℚ)),
   .R (s.x i 0), .R (s.x i 1), .R (s.x i 2),
   .R ((s.tag i : ℚ)), .R ((s.type i : ℚ)), .R ((s.mask i : ℚ)),
   .I (s.image i), .R (s.v i 0), .R (s.v i 1), .R (s.v i 2),
   .R ((s.molecule i : ℚ)), .R ((s.num_bond i : ℚ))]

/-- C9: every bond/angle/dihedral type word written into the restart
record by `pack_restart(i)` equals the absolute value of the stored type
entry, while every other topology word (partner tags, equilibrium bond
length, equilibrium angle) is written unchanged, at the documented
offsets of the record. -/
theorem c9_restart_types_absolute (s : Store) (i : ℕ) :
    (∀ k, k < s.num_bond i →
      (pack_restart s i).getD (13 + 3 * k) (.R 0) =
          .R ((|s.bond_type i k| : ℚ)) ∧
      (pack_restart s i).getD (14 + 3 * k) (.R 0) =
          .R ((s.bond_atom i k : ℚ)) ∧
      (pack_restart s i).getD (15 + 3 * k) (.R 0) = .R (s.bond_r0 i k)) ∧
    (∀ k, k < s.num_angle i →
      (pack_restart s i).getD (14 + 3 * s.num_bond i + 5 * k) (.R 0) =
          .R ((|s.angle_type i k| : ℚ)) ∧
      (pack_restart s i).getD (15 + 3 * s.num_bond i + 5 * k) (.R 0) =
          .R ((s.angle_atom1 i k : ℚ)) ∧
      (pack_restart s i).getD (16 + 3 * s.num_bond i + 5 * k) (.R 0) =
          .R ((s.angle_atom2 i k : ℚ)) ∧
      (pack_restart s i).getD (17 + 3 * s.num_bond i + 5 * k) (.R 0) =
          .R ((s.angle_atom3 i k : ℚ)) ∧
      (pack_restart s i).getD (18 + 3 * s.num_bond i + 5 * k) (.R 0) =
          .R (s.angle_a0 i k)) ∧
    (∀ k, k < s.num_dihedral i →
      (pack_restart s i).getD
          (15 + 3 * s.num_bond i + 5 * s.num_angle i + 5 * k) (.R 0) =
          .R ((|s.dihedral_type i k| : ℚ)) ∧
      (pack_restart s i).getD
          (16 + 3 * s.num_bond i + 5 * s.num_angle i + 5 * k) (.R 0) =
          .R ((s.dihedral_atom1 i k : ℚ)) ∧
      (pack_restart s i).getD
          (17 + 3 * s.num_bond i + 5 * s.num_angle i + 5 * k) (.R 0) =
          .R ((s.dihedral_atom2 i k : ℚ)) ∧
      (pack_restart s i).getD
          (18 + 3 * s.num_bond i + 5 * s.num_angle i + 5 * k) (.R 0) =
          .R ((s.dihedral_atom3 i k : ℚ)) ∧
      (pack_restart s i).getD
          (19 + 3 * s.num_bond i + 5 * s.num_angle i + 5 * k) (.R 0) =
          .R ((s.dihedral_atom4 i k : ℚ))) := by
  have hP1 : (restartHead s i).length = 13 := rfl
  have hP2 : ((restartHead s i ++ bondSegR s i) ++
      [Word.R ((s.num_angle i : ℚ))]).length = 14 + 3 * s.num_bond i := by
    simp [restartHead, bondSegR_length]
    omega
  have hP3 : ((((restartHead s i ++ bondSegR s i) ++
      [Word.R ((s.num_angle i : ℚ))]) ++ angleSegR s i) ++
      [Word.R ((s.num_dihedral i : ℚ))]).length =
      15 + 3 * s.num_bond i + 5 * s.num_angle i := by
    simp [restartHead, bondSegR_length, angleSegR_length]
    omega
  have hg1 : pack_restart s i =
      restartHead s i ++
        (bondSegR s i ++
          (.R ((s.num_angle i : ℚ)) ::
            (angleSegR s i ++
              (.R ((s.num_dihedral i : ℚ)) :: dihedralSegR s i)))) := by
    simp [pack_restart, pack_restart_body, restartHead]
  have hg2 : pack_restart s i =
      ((restartHead s i ++ bondSegR s i) ++
        [Word.R ((s.num_angle i : ℚ))]) ++
        (angleSegR s i ++
          (.R ((s.num_dihedral i : ℚ)) :: dihedralSegR s i)) := by
    simp [pack_restart, pack_restart_body, restartHead]
  have hg3 : pack_restart s i =
      ((((restartHead s i ++ bondSegR s i) ++
        [Word.R ((s.num_angle i : ℚ))]) ++ angleSegR s i) ++
        [Word.R ((s.num_dihedral i : ℚ))]) ++ dihedralSegR s i := by
    simp [pack_restart, pack_restart_body, restartHead]
  refine ⟨?_, ?_, ?_⟩
  · intro k hk
    refine ⟨?_, ?_, ?_⟩
    · rw [hg1, List.getD_append_right]
      · rw [hP1, show 13 + 3 * k - 13 = 3 * k + 0 from by omega,
          bondSegR_getD s i k 0 hk (by omega)]
        simp [max_neg_eq_abs, sup_neg_eq_abs]
      · rw [hP1]; omega
    · rw [hg1, List.getD_append_right]
      · rw [hP1, show 14 + 3 * k - 13 = 3 * k + 1 from by omega,
          bondSegR_getD s i k 1 hk (by omega)]
        simp
      · rw [hP1]; omega
    · rw [hg1, List.getD_append_right]
      · rw [hP1, show 15 + 3 * k - 13 = 3 * k + 2 from by omega,
          bondSegR_getD s i k 2 hk (by omega)]
        simp
      · rw [hP1]; omega
  · intro k hk
    refine ⟨?_, ?_, ?_, ?_, ?_⟩
    · rw [hg2, List.getD_append_right]
      · rw [hP2, show 14 + 3 * s.num_bond i + 5 * k -
            (14 + 3 * s.num_bond i) = 5 * k + 0 from by omega,
          angleSegR_getD s i k 0 hk (by omega)]
        simp [max_neg_eq_abs, sup_neg_eq_abs]
      · rw [hP2]; omega
    · rw [hg2, List.getD_append_right]
      · rw [hP2, show 15 + 3 * s.num_bond i + 5 * k -
            (14 + 3 * s.num_bond i) = 5 * k + 1 from by omega,
          angleSegR_getD s i k 1 hk (by omega)]
        simp
      · rw [hP2]; omega
    · rw [hg2, List.getD_append_right]
      · rw [hP2, show 16 + 3 * s.num_bond i + 5 * k -
            (14 + 3 * s.num_bond i) = 5 * k + 2 from by omega,
          angleSegR_getD s i k 2 hk (by omega)]
        simp
      · rw [hP2]; omega
    · rw [hg2, List.getD_append_right]
      · rw [hP2, show 17 + 3 * s.num_bond i + 5 * k -
            (14 + 3 * s.num_bond i) = 5 * k + 3 from by omega,
          angleSegR_getD s i k 3 hk (by omega)]
        simp
      · rw [hP2]; omega
    · rw [hg2, List.getD_append_right]
      · rw [hP2, show 18 + 3 * s.num_bond i + 5 * k -
            (14 + 3 * s.num_bond i) = 5 * k + 4 from by omega,
          angleSegR_getD s i k 4 hk (by omega)]
        simp
      · rw [hP2]; omega
  · intro k hk
    refine ⟨?_, ?_, ?_, ?_, ?_⟩
    · rw [hg3, List.getD_append_right]
      · rw [hP3, show 15 + 3 * s.num_bond i + 5 * s.num_angle i + 5 * k -
            (15 + 3 * s.num_bond i + 5 * s.num_angle i) = 5 * k + 0 from
            by omega,
          dihedralSegR_getD_nil s i k 0 hk (by omega)]
        simp [max_neg_eq_abs, sup_neg_eq_abs]
      · rw [hP3]; omega
    · rw [hg3, List.getD_append_right]
      · rw [hP3, show 16 + 3 * s.num_bond i + 5 * s.num_angle i + 5 * k -
            (15 + 3 * s.num_bond i + 5 * s.num_angle i) = 5 * k + 1 from
            by omega,
          dihedralSegR_getD_nil s i k 1 hk (by omega)]
        simp
      · rw [hP3]; omega
    · rw [hg3, List.getD_append_right]
      · rw [hP3, show 17 + 3 * s.num_bond i + 5 * s.num_angle i + 5 * k -
            (15 + 3 * s.num_bond i + 5 * s.num_angle i) = 5 * k + 2 from
            by omega,
          dihedralSegR_getD_nil s i k 2 hk (by omega)]
        simp
      · rw [hP3]; omega
    · rw [hg3, List.getD_append_right]
      · rw [hP3, show 18 + 3 * s.num_bond i + 5 * s.num_angle i + 5 * k -
            (15 + 3 * s.num_bond i + 5 * s.num_angle i) = 5 * k + 3 from
            by omega,
          dihedralSegR_getD_nil s i k 3 hk (by omega)]
        simp
      · rw [hP3]; omega
    · rw [hg3, List.getD_append_right]
      · rw [hP3, show 19 + 3 * s.num_bond i + 5 * s.num_angle i + 5 * k -
            (15 + 3 * s.num_bond i + 5 * s.num_angle i) = 5 * k + 4 from
            by omega,
          dihedralSegR_getD_nil s i k 4 hk (by omega)]
        simp
      · rw [hP3]; omega

/-- C9 witness: the restart record of the concrete particle `c5s` (whose
first bond has the negative type marker `-4`): the bond type word is
`|-4| = 4` and the first angle type word is `|6| = 6`. -/
theorem c9_restart_types_absolute_witness :
    (0 : ℕ) < c5s.num_bond 0 ∧ (0 : ℕ) < c5s.num_angle 0 ∧
      (pack_restart c5s 0).getD (13 + 3 * 0) (.R 0) =
        .R ((|c5s.bond_type 0 0| : ℚ)) ∧
      (pack_restart c5s 0).getD (14 + 3 * c5s.num_bond 0 + 5 * 0) (.R 0) =
        .R ((|c5s.angle_type 0 0| : ℚ)) := by
  obtain ⟨hb, ha, -⟩ := c9_restart_types_absolute c5s 0
  exact ⟨by decide, by decide, (hb 0 (by decide)).1, (ha 0 (by decide)).1⟩

/-- The two fatal errors raised by `AtomVecRBC::data_atom`
(`error->one(FLERR, ...)` aborts the run). -/
inductive DataFileError where
  | invalidAtomID
  | invalidAtomType
deriving DecidableEq

/-- `AtomVecRBC::data_atom` (lines 1004-1033): ingest one parsed data
file row (`values[0..2]` already run through `atoi` as `tagv`, `molv`,
`typev`).  A non-positive tag or a type outside `[1, ntypes]` aborts;
otherwise a new owned particle is appended with group mask 1, zero
velocity and zero topology counts. -/
def data_atom (s : Store) (ntypes : ℤ) (coord : ℕ → ℚ) (imagetmp : ℤ)
    (tagv molv typev : ℤ) : Except DataFileError Store :=
  if tagv ≤ 0 then .error .invalidAtomID
  else if typev ≤ 0 ∨ ntypes < typev then .error .invalidAtomType
  else .ok
    { s with
      nlocal := s.nlocal + 1,
      tag := upd1 s.tag s.nlocal tagv,
      molecule := upd1 s.molecule s.nlocal molv,
      type := upd1 s.type s.nlocal typev,
      x := updRow3 s.x s.nlocal (coord 0) (coord 1) (coord 2),
      image := upd1 s.image s.nlocal imagetmp,
      mask := upd1 s.mask s.nlocal 1,
      v := updRow3 s.v s.nlocal 0 0 0,
      num_bond := upd1 s.num_bond s.nlocal 0,
      num_angle := upd1 s.num_angle s.nlocal 0,
      num_dihedral := upd1 s.num_dihedral s.nlocal 0 }

/-- C8: `data_atom` fails iff the parsed tag is non-positive or the
parsed type is outside `[1, ntypes]`; on success it appends a new owned
particle holding the row's tag, molecule id, type, coordinates and image
code, with group mask 1, zero velocity, and zero bond, angle and dihedral
counts. -/
theorem c8_data_atom_checks (s : Store) (ntypes : ℤ) (coord : ℕ → ℚ)
    (imagetmp tagv molv typev : ℤ) :
    ((∃ e, data_atom s ntypes coord imagetmp tagv molv typev = .error e) ↔
      (tagv ≤ 0 ∨ typev ≤ 0 ∨ ntypes < typev)) ∧
    (∀ s', data_atom s ntypes coord imagetmp tagv molv typev = .ok s' →
      s'.tag s.nlocal = tagv ∧ s'.molecule s.nlocal = molv ∧
      s'.type s.nlocal = typev ∧
      (∀ d, d < 3 → s'.x s.nlocal d = coord d) ∧
      s'.image s.nlocal = imagetmp ∧ s'.mask s.nlocal = 1 ∧
      (∀ d, d < 3 → s'.v s.nlocal d = 0) ∧
      s'.num_bond s.nlocal = 0 ∧ s'.num_angle s.nlocal = 0 ∧
      s'.num_dihedral s.nlocal = 0 ∧ s'.nlocal = s.nlocal + 1) := by
  by_cases h1 : tagv ≤ 0
  · constructor
    · simp [data_atom, h1]
    · intro s' hs'
      rw [data_atom, if_pos h1] at hs'
      exact absurd hs' (by simp)
  · by_cases h2 : typev ≤ 0 ∨ ntypes < typev
    · constructor
      · simp [data_atom, h1, h2]
      · intro s' hs'
        rw [data_atom, if_neg h1, if_pos h2] at hs'
        exact absurd hs' (by simp)
    · obtain ⟨h2a, h2b⟩ := not_or.mp h2
      constructor
      · simp [data_atom, h1, h2, h2a, h2b]
      · intro s' hs'
        rw [data_atom, if_neg h1, if_neg h2] at hs'
        have hs'' := (Except.ok.injEq _ _).mp hs'
        subst hs''
        refine ⟨by simp [upd1], by simp [upd1], by simp [upd1], ?_,
          by simp [upd1], by simp [upd1], ?_, by simp [upd1],
          by simp [upd1], by simp [upd1], rfl⟩
        · intro d hd
          interval_cases d <;> simp [updRow3, upd2]
        · intro d hd
          interval_cases d <;> simp [updRow3, upd2]

/-- C8 witness: the checks at the concrete rows `(tag 5, mol 2, type 3)`
with `ntypes = 3` (accepted) and `(tag -1, mol 2, type 3)` (rejected). -/
theorem c8_data_atom_checks_witness :
    ¬ ((5 : ℤ) ≤ 0 ∨ (3 : ℤ) ≤ 0 ∨ (3 : ℤ) < 3) ∧
    (¬ ∃ e, data_atom zeroStore 3 (fun _ => (4 : ℚ)) 11 5 2 3 =
      Except.error e) ∧
    (∃ e, data_atom zeroStore 3 (fun _ => (4 : ℚ)) 11 (-1) 2 3 =
      Except.error e) :=
  ⟨by decide,
    fun hex =>
      absurd ((c8_data_atom_checks zeroStore 3 (fun _ => (4 : ℚ)) 11 5 2
        3).1.mp hex) (by decide),
    (c8_data_atom_checks zeroStore 3 (fun _ => (4 : ℚ)) 11 (-1) 2
      3).1.mpr (Or.inl (by decide))⟩

/-- The loop `for (k = 0; k < n; k++) arr[j][k] = arr[i][k]` of
`AtomVecRBC::copy`, one array at a time (the C code interleaves the
sibling arrays of one topology list in a single loop; the arrays are
disjoint, so the net effect is identical). -/
def copy_row_loop {α : Type} (g : ℕ → ℕ → α) (i j : ℕ) : ℕ → (ℕ → ℕ → α)
  | 0 => g
  | k + 1 =>
      let g' := copy_row_loop g i j k
      upd2 g' j k (g' i k)

/-- `AtomVecRBC::copy` (lines 151-200, no registered extensions; the
`delflag` argument is unused by this implementation outside the extension
hook): copy slot `i`'s record onto slot `j`.  The topology loop bounds
are `num_bond[j]` etc. read back after the count assignment, which equals
`num_bond[i]`; likewise the special loop bound `nspecial[j][2]`. -/
def copy (s : Store) (i j : ℕ) : Store :=
  { s with
    tag := upd1 s.tag j (s.tag i),
    type := upd1 s.type j (s.type i),
    mask := upd1 s.mask j (s.mask i),
    image := upd1 s.image j (s.image i),
    x := updRow3 s.x j (s.x i 0) (s.x i 1) (s.x i 2),
    v := updRow3 s.v j (s.v i 0) (s.v i 1) (s.v i 2),
    molecule := upd1 s.molecule j (s.molecule i),
    num_bond := upd1 s.num_bond j (s.num_bond i),
    bond_type := copy_row_loop s.bond_type i j (s.num_bond i),
    bond_atom := copy_row_loop s.bond_atom i j (s.num_bond i),
    bond_r0 := copy_row_loop s.bond_r0 i j (s.num_bond i),
    num_angle := upd1 s.num_angle j (s.num_angle i),
    angle_type := copy_row_loop s.angle_type i j (s.num_angle i),
    angle_atom1 := copy_row_loop s.angle_atom1 i j (s.num_angle i),
    angle_atom2 := copy_row_loop s.angle_atom2 i j (s.num_angle i),
    angle_atom3 := copy_row_loop s.angle_atom3 i j (s.num_angle i),
    angle_a0 := copy_row_loop s.angle_a0 i j (s.num_angle i),
    num_dihedral := upd1 s.num_dihedral j (s.num_dihedral i),
    dihedral_type := copy_row_loop s.dihedral_type i j (s.num_dihedral i),
    dihedral_atom1 := copy_row_loop s.dihedral_atom1 i j (s.num_dihedral i),
    dihedral_atom2 := copy_row_loop s.dihedral_atom2 i j (s.num_dihedral i),
    dihedral_atom3 := copy_row_loop s.dihedral_atom3 i j (s.num_dihedral i),
    dihedral_atom4 := copy_row_loop s.dihedral_atom4 i j (s.num_dihedral i),
    nspecial := upd2 (upd2 (upd2 s.nspecial j 0 (s.nspecial i 0)) j 1
      (s.nspecial i 1)) j 2 (s.nspecial i 2),
    special := copy_row_loop s.special i j (s.nspecial i 2) }

theorem copy_row_loop_other {α : Type} (g : ℕ → ℕ → α) (i j : ℕ)
    (a b : ℕ) (ha : a ≠ j) :
    ∀ n, copy_row_loop g i j n a b = g a b := by
  intro n
  induction n with
  | zero => rfl
  | succ m ih =>
      show upd2 _ j m _ a b = g a b
      rw [upd2]
      simp [ha]
      exact ih

theorem copy_row_loop_high {α : Type} (g : ℕ → ℕ → α) (i j : ℕ) (b : ℕ) :
    ∀ n, n ≤ b → copy_row_loop g i j n j b = g j b := by
  intro n
  induction n with
  | zero => intro _; rfl
  | succ m ih =>
      intro hb
      show upd2 _ j m _ j b = g j b
      rw [upd2]
      have hbm : ¬ (b = m) := by omega
      simp only [hbm, and_false, if_false]
      exact ih (by omega)

/-- C10: for `i ≠ j`, `copy(i, j, delflag)` modifies only slot `j`'s
fields: the full record of every slot `a ≠ j` (in particular slot `i`) is
unchanged, and within slot `j`'s topology and special-neighbor arrays
only the first `num_bond[i]`, `num_angle[i]`, `num_dihedral[i]` and
`nspecial[i][2]` entries are written. -/
theorem c10_copy_frame (s : Store) (i j : ℕ) (_hij : i ≠ j) (a : ℕ)
    (ha : a ≠ j) (k c d : ℕ) :
    (copy s i j).nlocal = s.nlocal ∧
    (copy s i j).tag a = s.tag a ∧
    (copy s i j).type a = s.type a ∧
    (copy s i j).mask a = s.mask a ∧
    (copy s i j).image a = s.image a ∧
    (copy s i j).molecule a = s.molecule a ∧
    (copy s i j).x a d = s.x a d ∧
    (copy s i j).v a d = s.v a d ∧
    (copy s i j).f a d = s.f a d ∧
    (copy s i j).num_bond a = s.num_bond a ∧
    (copy s i j).num_angle a = s.num_angle a ∧
    (copy s i j).num_dihedral a = s.num_dihedral a ∧
    (copy s i j).bond_type a k = s.bond_type a k ∧
    (copy s i j).bond_atom a k = s.bond_atom a k ∧
    (copy s i j).bond_r0 a k = s.bond_r0 a k ∧
    (copy s i j).angle_type a k = s.angle_type a k ∧
    (copy s i j).angle_atom1 a k = s.angle_atom1 a k ∧
    (copy s i j).angle_atom2 a k = s.angle_atom2 a k ∧
    (copy s i j).angle_atom3 a k = s.angle_atom3 a k ∧
    (copy s i j).angle_a0 a k = s.angle_a0 a k ∧
    (copy s i j).dihedral_type a k = s.dihedral_type a k ∧
    (copy s i j).dihedral_atom1 a k = s.dihedral_atom1 a k ∧
    (copy s i j).dihedral_atom2 a k = s.dihedral_atom2 a k ∧
    (copy s i j).dihedral_atom3 a k = s.dihedral_atom3 a k ∧
    (copy s i j).dihedral_atom4 a k = s.dihedral_atom4 a k ∧
    (copy s i j).nspecial a c = s.nspecial a c ∧
    (copy s i j).special a k = s.special a k ∧
    (s.num_bond i ≤ k →
      (copy s i j).bond_type j k = s.bond_type j k ∧
      (copy s i j).bond_atom j k = s.bond_atom j k ∧
      (copy s i j).bond_r0 j k = s.bond_r0 j k) ∧
    (s.num_angle i ≤ k →
      (copy s i j).angle_type j k = s.angle_type j k ∧
      (copy s i j).angle_atom1 j k = s.angle_atom1 j k ∧
      (copy s i j).angle_atom2 j k = s.angle_atom2 j k ∧
      (copy s i j).angle_atom3 j k = s.angle_atom3 j k ∧
      (copy s i j).angle_a0 j k = s.angle_a0 j k) ∧
    (s.num_dihedral i ≤ k →
      (copy s i j).dihedral_type j k = s.dihedral_type j k ∧
      (copy s i j).dihedral_atom1 j k = s.dihedral_atom1 j k ∧
      (copy s i j).dihedral_atom2 j k = s.dihedral_atom2 j k ∧
      (copy s i j).dihedral_atom3 j k = s.dihedral_atom3 j k ∧
      (copy s i j).dihedral_atom4 j k = s.dihedral_atom4 j k) ∧
    (s.nspecial i 2 ≤ k →
      (copy s i j).special j k = s.special j k) := by
  refine ⟨rfl, ?_, ?_, ?_, ?_, ?_, ?_, ?_, rfl, ?_, ?_, ?_,
    ?_, ?_, ?_, ?_, ?_, ?_, ?_, ?_, ?_, ?_, ?_, ?_, ?_, ?_, ?_,
    ?_, ?_, ?_, ?_⟩
  · simp [copy, upd1, ha]
  · simp [copy, upd1, ha]
  · simp [copy, upd1, ha]
  · simp [copy, upd1, ha]
  · simp [copy, upd1, ha]
  · simp [copy, updRow3, upd2, ha]
  · simp [copy, updRow3, upd2, ha]
  · simp [copy, upd1, ha]
  · simp [copy, upd1, ha]
  · simp [copy, upd1, ha]
  · exact copy_row_loop_other s.bond_type i j a k ha _
  · exact copy_row_loop_other s.bond_atom i j a k ha _
  · exact copy_row_loop_other s.bond_r0 i j a k ha _
  · exact copy_row_loop_other s.angle_type i j a k ha _
  · exact copy_row_loop_other s.angle_atom1 i j a k ha _
  · exact copy_row_loop_other s.angle_atom2 i j a k ha _
  · exact copy_row_loop_other s.angle_atom3 i j a k ha _
  · exact copy_row_loop_other s.angle_a0 i j a k ha _
  · exact copy_row_loop_other s.dihedral_type i j a k ha _
  · exact copy_row_loop_other s.dihedral_atom1 i j a k ha _
  · exact copy_row_loop_other s.dihedral_atom2 i j a k ha _
  · exact copy_row_loop_other s.dihedral_atom3 i j a k ha _
  · exact copy_row_loop_other s.dihedral_atom4 i j a k ha _
  · simp [copy, upd2, ha]
  · exact copy_row_loop_other s.special i j a k ha _
  · intro hk
    exact ⟨copy_row_loop_high s.bond_type i j k _ hk,
      copy_row_loop_high s.bond_atom i j k _ hk,
      copy_row_loop_high s.bond_r0 i j k _ hk⟩
  · intro hk
    exact ⟨copy_row_loop_high s.angle_type i j k _ hk,
      copy_row_loop_high s.angle_atom1 i j k _ hk,
      copy_row_loop_high s.angle_atom2 i j k _ hk,
      copy_row_loop_high s.angle_atom3 i j k _ hk,
      copy_row_loop_high s.angle_a0 i j k _ hk⟩
  · intro hk
    exact ⟨copy_row_loop_high s.dihedral_type i j k _ hk,
      copy_row_loop_high s.dihedral_atom1 i j k _ hk,
      copy_row_loop_high s.dihedral_atom2 i j k _ hk,
      copy_row_loop_high s.dihedral_atom3 i j k _ hk,
      copy_row_loop_high s.dihedral_atom4 i j k _ hk⟩
  · intro hk
    exact copy_row_loop_high s.special i j k _ hk

/-- C10 witness: the frame property of `copy` at the concrete store
`c5s`, `i = 0`, `j = 1`, untouched slot `a = 2`, entry `k = 5` (beyond
the two copied bonds). -/
theorem c10_copy_frame_witness :
    (0 : ℕ) ≠ 1 ∧ (2 : ℕ) ≠ 1 ∧ c5s.num_bond 0 ≤ 5 ∧
      (copy c5s 0 1).tag 2 = c5s.tag 2 ∧
      (copy c5s 0 1).bond_type 1 5 = c5s.bond_type 1 5 := by
  obtain ⟨-, htag, -, -, -, -, -, -, -, -, -, -, -, -, -, -, -, -, -, -,
    -, -, -, -, -, -, -, hbond, -⟩ :=
    c10_copy_frame c5s 0 1 (by decide) 2 (by decide) 5 0 0
  exact ⟨by decide, by decide, by decide, htag, (hbond (by decide)).1⟩
